import Mathlib

/-!
# Verification of the Secure RAG vector-transform core

Shallow embedding of the repository's core (src/chaos_engine.py and
src/secure_rag.py) over real arithmetic, together with theorems settling
the frozen claims about it.

Floating-point `numpy` arithmetic is idealised as arithmetic over `ℝ`
(the spec itself phrases the guarantees "exactly in infinite precision" /
"up to floating-point rounding").  `numpy.linalg.qr` is embedded as the
Householder-reflector QR factorisation that LAPACK (and hence numpy)
implements, in exact arithmetic.  Shapes that numpy checks at run time
(matmul column counts) are made value-level where a claim is about the
check itself; elsewhere they live in the types.
-/

namespace SecureRag

open Matrix

/-! ## ChaosEngine (src/chaos_engine.py) -/

/-- Embedding of `ChaosEngine.__init__`: stores the control parameter `r` and the
seed `x0`.  -/
structure ChaosEngine where
  r : ℝ
  x0 : ℝ

/-- One step of the logistic map update in `generate_sequence`:
`current_x = self.r * current_x * (1 - current_x)`. -/
noncomputable def logisticStep (r x : ℝ) : ℝ :=
  r * x * (1 - x)

/-- The loop body of `ChaosEngine.generate_sequence`: starting from
`current_x = x`, repeatedly update `current_x` and append it; the seed
itself is never appended, only its iterates. -/
noncomputable def logisticLoop (r : ℝ) : ℝ → ℕ → List ℝ
  | _, 0 => []
  | x, Nat.succ m => logisticStep r x :: logisticLoop r (logisticStep r x) m

/-- Embedding of `ChaosEngine.generate_sequence(length)` from src/chaos_engine.py:
runs the logistic map for `length` iterations from `x0` and returns the
iterated values in order. -/
noncomputable def ChaosEngine.generate_sequence (e : ChaosEngine) (length : ℕ) : List ℝ :=
  logisticLoop e.r e.x0 length

theorem logisticLoop_length (r x : ℝ) (n : ℕ) : (logisticLoop r x n).length = n := by
  induction n generalizing x with
  | zero => rfl
  | succ m ih => simp [logisticLoop, ih]

theorem logisticLoop_eq_map (r x : ℝ) (n : ℕ) :
    logisticLoop r x n = (List.range n).map (fun i => (logisticStep r)^[i + 1] x) := by
  induction n generalizing x with
  | zero => rfl
  | succ m ih =>
    rw [List.range_succ_eq_map]
    simp only [logisticLoop, List.map_cons, Function.iterate_one, List.map_map]
    refine List.cons_eq_cons.mpr ⟨rfl, ?_⟩
    rw [ih (logisticStep r x)]
    refine List.map_congr_left ?_
    intro i _
    simp [Function.iterate_succ_apply]

theorem logisticStep_mem_unitInterval {r x : ℝ} (hr0 : 0 ≤ r) (hr4 : r ≤ 4)
    (hx0 : 0 ≤ x) (hx1 : x ≤ 1) :
    0 ≤ logisticStep r x ∧ logisticStep r x ≤ 1 := by
  constructor
  · have h1 : 0 ≤ 1 - x := by linarith
    have := mul_nonneg (mul_nonneg hr0 hx0) h1
    simpa [logisticStep, mul_assoc] using this
  · have hq : x * (1 - x) ≤ 1 / 4 := by nlinarith [sq_nonneg (x - 1 / 2)]
    have h0 : 0 ≤ x * (1 - x) := mul_nonneg hx0 (by linarith)
    calc r * x * (1 - x) = r * (x * (1 - x)) := by ring
    _ ≤ 4 * (1 / 4) := by
        apply mul_le_mul hr4 hq h0 (by norm_num)
    _ = 1 := by norm_num

theorem logisticLoop_mem_unitInterval {r x : ℝ} (hr0 : 0 ≤ r) (hr4 : r ≤ 4)
    (hx0 : 0 ≤ x) (hx1 : x ≤ 1) (n : ℕ) :
    ∀ y ∈ logisticLoop r x n, 0 ≤ y ∧ y ≤ 1 := by
  induction n generalizing x with
  | zero => intro y hy; simp [logisticLoop] at hy
  | succ m ih =>
    intro y hy
    obtain ⟨h0, h1⟩ := logisticStep_mem_unitInterval hr0 hr4 hx0 hx1
    rcases List.mem_cons.mp hy with h | h
    · exact h ▸ ⟨h0, h1⟩
    · exact ih h0 h1 y h

/-! ## QR decomposition (embedding of numpy.linalg.qr)

`numpy.linalg.qr` calls LAPACK's Householder-reflector factorisation.
In exact real arithmetic the orthogonal factor is the product of the
Householder reflectors computed column by column; each reflector is
exactly orthogonal, hence so is their product, whatever the input
matrix.  We embed that algorithm: `qrPivotVec` is the standard pivot
vector for column `k` (sign chosen to avoid cancellation, as LAPACK
does), `householder` the reflector, and `qrQ` the accumulated
orthogonal factor. -/

/-- Householder reflector `I - (2 / vᵀv) · v vᵀ` (the identity when
`v = 0`, matching LAPACK's `tau = 0` convention for a zero column). -/
noncomputable def householder {n : ℕ} (v : Fin n → ℝ) : Matrix (Fin n) (Fin n) ℝ :=
  if (∑ i, v i * v i) = 0 then 1
  else (1 : Matrix (Fin n) (Fin n) ℝ) -
    (2 / (∑ i, v i * v i)) • Matrix.of (fun i j => v i * v j)

theorem householder_symm {n : ℕ} (v : Fin n → ℝ) :
    (householder v)ᵀ = householder v := by
  unfold householder
  split
  · simp
  · ext i j
    simp [Matrix.transpose_apply, Matrix.sub_apply, Matrix.smul_apply, Matrix.one_apply,
      mul_comm (v j) (v i), eq_comm]

theorem householder_mul_self {n : ℕ} (v : Fin n → ℝ) :
    householder v * householder v = 1 := by
  unfold householder
  split
  · simp
  · rename_i hs
    set s : ℝ := ∑ i, v i * v i with hsdef
    set M : Matrix (Fin n) (Fin n) ℝ := Matrix.of (fun i j => v i * v j) with hMdef
    have hMM : M * M = s • M := by
      ext i j
      simp only [Matrix.mul_apply, Matrix.smul_apply, hMdef, Matrix.of_apply, smul_eq_mul]
      rw [hsdef, Finset.sum_mul]
      apply Finset.sum_congr rfl
      intro k _
      ring
    have expand : ((1 : Matrix (Fin n) (Fin n) ℝ) - (2 / s) • M) *
        ((1 : Matrix (Fin n) (Fin n) ℝ) - (2 / s) • M) =
        1 - (2 / s) • M - (2 / s) • M + ((2 / s) * (2 / s)) • (M * M) := by
      rw [Matrix.sub_mul, Matrix.mul_sub, Matrix.mul_sub]
      simp only [Matrix.one_mul, Matrix.mul_one, Matrix.smul_mul, Matrix.mul_smul,
        smul_smul]
      abel
    rw [expand, hMM, smul_smul]
    have hcoef : (2 / s) + (2 / s) = (2 / s) * (2 / s) * s := by
      field_simp
      ring
    have : ((2 / s) * (2 / s) * s) • M = ((2 / s) + (2 / s)) • M := by rw [hcoef]
    rw [this, add_smul]
    abel

theorem householder_orthogonal {n : ℕ} (v : Fin n → ℝ) :
    (householder v)ᵀ * householder v = 1 := by
  rw [householder_symm]; exact householder_mul_self v

/-- The column-`k` slice that LAPACK reflects: entries of column `k`
from row `k` downward, zero above. -/
noncomputable def qrColTail {n : ℕ} (A : Matrix (Fin n) (Fin n) ℝ) (k : Fin n) : Fin n → ℝ :=
  fun i => if k ≤ i then A i k else 0

/-- The Householder pivot vector for column `k`:
`x + sign(x_k) ‖x‖ e_k` where `x` is the column tail. -/
noncomputable def qrPivotVec {n : ℕ} (A : Matrix (Fin n) (Fin n) ℝ) (k : Fin n) : Fin n → ℝ :=
  fun i =>
    qrColTail A k i +
      (if i = k then
        (if A k k < 0 then -1 else 1) * Real.sqrt (∑ j, qrColTail A k j ^ 2)
      else 0)

/-- One elimination step: the reflector for column `k` of the current
working matrix. -/
noncomputable def qrStepH {n : ℕ} (A : Matrix (Fin n) (Fin n) ℝ) (k : Fin n) :
    Matrix (Fin n) (Fin n) ℝ :=
  householder (qrPivotVec A k)

/-- The elimination loop: runs through the column indices, applying the
reflector of the current working matrix to it and accumulating the
product of reflectors (the factor `Q = H₁ H₂ ⋯ Hₙ`). -/
noncomputable def qrLoop {n : ℕ} :
    List (Fin n) → Matrix (Fin n) (Fin n) ℝ × Matrix (Fin n) (Fin n) ℝ →
      Matrix (Fin n) (Fin n) ℝ × Matrix (Fin n) (Fin n) ℝ
  | [], st => st
  | k :: ks, st => qrLoop ks (st.1 * qrStepH st.2 k, qrStepH st.2 k * st.2)

/-- The orthogonal factor `Q` of the Householder QR factorisation of
`A` (the factor `numpy.linalg.qr` returns first; `R` is discarded by
the source). -/
noncomputable def qrQ {n : ℕ} (A : Matrix (Fin n) (Fin n) ℝ) : Matrix (Fin n) (Fin n) ℝ :=
  (qrLoop (List.finRange n) (1, A)).1

theorem qrLoop_orthogonal {n : ℕ} (ks : List (Fin n))
    (st : Matrix (Fin n) (Fin n) ℝ × Matrix (Fin n) (Fin n) ℝ)
    (h : st.1ᵀ * st.1 = 1) : (qrLoop ks st).1ᵀ * (qrLoop ks st).1 = 1 := by
  induction ks generalizing st with
  | nil => exact h
  | cons k ks ih =>
    apply ih
    simp only [Matrix.transpose_mul]
    calc (qrStepH st.2 k)ᵀ * st.1ᵀ * (st.1 * qrStepH st.2 k)
        = (qrStepH st.2 k)ᵀ * (st.1ᵀ * st.1) * qrStepH st.2 k := by
          simp only [Matrix.mul_assoc]
    _ = (qrStepH st.2 k)ᵀ * qrStepH st.2 k := by rw [h, Matrix.mul_one]
    _ = 1 := householder_orthogonal _

theorem qrQ_orthogonal {n : ℕ} (A : Matrix (Fin n) (Fin n) ℝ) :
    (qrQ A)ᵀ * qrQ A = 1 := by
  apply qrLoop_orthogonal
  simp

/-- Embedding of `ChaosEngine.generate_orthogonal_matrix(size)` from
src/chaos_engine.py: generates `size * size` chaotic values, reshapes
them row-major into a `size × size` matrix, and returns the orthogonal
factor of its QR decomposition. -/
noncomputable def ChaosEngine.generate_orthogonal_matrix (e : ChaosEngine) (size : ℕ) :
    Matrix (Fin size) (Fin size) ℝ :=
  let raw_chaos := e.generate_sequence (size * size)
  let matrix : Matrix (Fin size) (Fin size) ℝ :=
    Matrix.of fun i j => raw_chaos.getD ((i : ℕ) * size + (j : ℕ)) 0
  qrQ matrix

/-! ## SecureVectorEngine (src/secure_rag.py) -/

/-- The state built by `SecureVectorEngine.__init__`: it stores the
secret key and dimension, the chaos engine constructed with the fixed
control parameter `r = 3.99`, and the pre-computed orthogonal key
matrix. -/
structure SecureVectorEngine where
  secret_key : ℝ
  dimension : ℕ
  engine : ChaosEngine
  orthogonal_key : Matrix (Fin dimension) (Fin dimension) ℝ

/-- Embedding of `SecureVectorEngine.__init__(secret_key, dimension)`.  The body
contains no validation and no operation that can raise, so the
constructor is total; `Option` records whether a Python exception
escapes (`none`) or an engine is produced (`some`). -/
noncomputable def SecureVectorEngine.init (secret_key : ℝ) (dimension : ℕ) :
    Option SecureVectorEngine :=
  some
    { secret_key := secret_key
      dimension := dimension
      engine := { r := 3.99, x0 := secret_key }
      orthogonal_key := ChaosEngine.generate_orthogonal_matrix { r := 3.99, x0 := secret_key } dimension }

/-- Embedding of `SecureVectorEngine.encrypt_batch(vectors)`:
`return vectors @ self.orthogonal_key`. -/
noncomputable def SecureVectorEngine.encrypt_batch (E : SecureVectorEngine) {N : ℕ}
    (vectors : Matrix (Fin N) (Fin E.dimension) ℝ) : Matrix (Fin N) (Fin E.dimension) ℝ :=
  vectors * E.orthogonal_key

/-- The two array shapes `encrypt_single` accepts for a vector of the
bound dimension: a flat `(d,)` array (`ndim == 1`) or a single-row
`(1, d)` array (`ndim == 2`). -/
inductive NpVec (d : ℕ) where
  | flat (v : Fin d → ℝ)
  | row (m : Matrix (Fin 1) (Fin d) ℝ)

/-- Embedding of `vector.reshape(1, -1)` applied to a flat `(d,)` array. -/
noncomputable def reshapeRow {d : ℕ} (v : Fin d → ℝ) : Matrix (Fin 1) (Fin d) ℝ :=
  Matrix.of fun _ j => v j

/-- Embedding of `SecureVectorEngine.encrypt_single(vector)`: reshapes a 1-D input
to a single row, multiplies by the key, and flattens the `(1, d)`
result back to a flat `(d,)` array. -/
noncomputable def SecureVectorEngine.encrypt_single (E : SecureVectorEngine)
    (vector : NpVec E.dimension) : Fin E.dimension → ℝ :=
  let asRow : Matrix (Fin 1) (Fin E.dimension) ℝ :=
    match vector with
    | .flat v => reshapeRow v
    | .row m => m
  let encrypted := asRow * E.orthogonal_key
  fun j => encrypted 0 j

/-- Variant of `encrypt_batch` with the column count of the argument value-level,
exposing the shape check numpy's `@` performs: `(N, m) @ (d, d)`
raises unless `m = d` (`none`); it never truncates or pads. -/
noncomputable def SecureVectorEngine.encrypt_batch_checked (E : SecureVectorEngine)
    {N m : ℕ} (vectors : Matrix (Fin N) (Fin m) ℝ) :
    Option (Matrix (Fin N) (Fin E.dimension) ℝ) :=
  if h : m = E.dimension then
    some ((Matrix.of fun i j => vectors i (Fin.cast h.symm j)) * E.orthogonal_key)
  else none

/-- Variant of `encrypt_single` on a flat input with the length value-level:
after `reshape(1, -1)` the multiplication `(1, m) @ (d, d)` raises
unless `m = d`. -/
noncomputable def SecureVectorEngine.encrypt_single_checked (E : SecureVectorEngine)
    {m : ℕ} (vector : Fin m → ℝ) : Option (Fin E.dimension → ℝ) :=
  if h : m = E.dimension then
    some (fun j => (reshapeRow (fun i => vector (Fin.cast h.symm i)) * E.orthogonal_key) 0 j)
  else none

/-! ## Search (src/secure_rag.py, `SecureVectorEngine.search`) -/

/-- The per-row distances computed by `search`:
`distances = sqrt(sum((database - query) ** 2, axis=1))`. -/
noncomputable def searchDist {d N : ℕ} (encrypted_query : Fin d → ℝ)
    (encrypted_database : Matrix (Fin N) (Fin d) ℝ) : Fin N → ℝ :=
  fun i => Real.sqrt (∑ j, (encrypted_database i j - encrypted_query j) ^ 2)

/-- Embedding of `np.argsort(distances)`: the row indices ordered so that the
distances are ascending.  Ties are kept in original index order
(insertion sort); numpy's default quicksort does not promise a tie
order, and coincides with this model whenever order on ties is
immaterial (numpy itself insertion-sorts small ranges). -/
noncomputable def argsortDist {N : ℕ} (dist : Fin N → ℝ) : List (Fin N) :=
  List.insertionSort (fun i j => dist i ≤ dist j) (List.finRange N)

/-- Embedding of `SecureVectorEngine.search(encrypted_query, encrypted_database, top_k)`:
computes all distances, argsorts them, keeps the first `top_k` indices
and pairs each with its distance.  (The source returns the index array
and the distance array separately; we return the zipped list.) -/
noncomputable def search {d N : ℕ} (encrypted_query : Fin d → ℝ)
    (encrypted_database : Matrix (Fin N) (Fin d) ℝ) (top_k : ℕ) : List (Fin N × ℝ) :=
  ((argsortDist (searchDist encrypted_query encrypted_database)).take top_k).map
    fun i => (i, searchDist encrypted_query encrypted_database i)

/-! ## Euclidean distance and cosine similarity (the quantities the
spec's guarantees are stated in) -/

/-- Euclidean distance `‖a − b‖` between two `d`-vectors. -/
noncomputable def euclid {d : ℕ} (a b : Fin d → ℝ) : ℝ :=
  Real.sqrt (∑ j, (a j - b j) ^ 2)

/-- Cosine similarity `⟨a, b⟩ / (‖a‖ ‖b‖)`. -/
noncomputable def cosine_similarity {d : ℕ} (a b : Fin d → ℝ) : ℝ :=
  (∑ j, a j * b j) /
    (Real.sqrt (∑ j, a j * a j) * Real.sqrt (∑ j, b j * b j))

/-! ## Helper lemmas about the generated sequence -/

theorem logisticLoop_getD (r x : ℝ) (n i : ℕ) (h : i < n) :
    (logisticLoop r x n).getD i 0 = (logisticStep r)^[i + 1] x := by
  induction n generalizing x i with
  | zero => omega
  | succ m ih =>
    cases i with
    | zero => simp [logisticLoop]
    | succ j =>
      have hj : j < m := by omega
      have := ih (logisticStep r x) j hj
      simp only [logisticLoop, List.getD_cons_succ, this]
      rw [← Function.iterate_succ_apply]

/-! ## Claim C8 -/

/-- C8, as frozen, is false: it quantifies over *every* seed and
control parameter.  At `r = 5`, `x0 = 1/2` the single returned value is
`5/4 ∉ [0,1]`; and at `r = 2`, `x0 = 1/2` the seed `1/2` is a fixed
point of the map, so the returned sequence `[1/2]` does contain the
seed value. -/
theorem C8_counterexample :
    ChaosEngine.generate_sequence ⟨5, 1 / 2⟩ 1 = [5 / 4] ∧
    ¬ ((5 : ℝ) / 4 ≤ 1) ∧
    ChaosEngine.generate_sequence ⟨2, 1 / 2⟩ 1 = [1 / 2] := by
  refine ⟨?_, by norm_num, ?_⟩
  · simp only [ChaosEngine.generate_sequence, logisticLoop, logisticStep]
    norm_num
  · simp only [ChaosEngine.generate_sequence, logisticLoop, logisticStep]
    norm_num

/-- C8 (amended): for every seed and control parameter,
`generate_sequence` returns exactly `length` values, the first being
`r·x0·(1−x0)`, each later value `r·v·(1−v)` of its predecessor, and
position `i` holding the `(i+1)`-st iterate — the seed itself occupies
no position of the result (though at a fixed point a returned value
can equal it numerically); when additionally the seed lies in `[0,1]`
and the control parameter in `[0,4]`, all returned values lie in
`[0,1]`. -/
theorem C8_generate_sequence (e : ChaosEngine) (length : ℕ) :
    (e.generate_sequence length).length = length ∧
    e.generate_sequence length
      = (List.range length).map (fun i => (logisticStep e.r)^[i + 1] e.x0) ∧
    (0 < length → (e.generate_sequence length).getD 0 0 = logisticStep e.r e.x0) ∧
    (∀ i, i + 1 < length →
      (e.generate_sequence length).getD (i + 1) 0
        = logisticStep e.r ((e.generate_sequence length).getD i 0)) ∧
    (0 ≤ e.r → e.r ≤ 4 → 0 ≤ e.x0 → e.x0 ≤ 1 →
      ∀ y ∈ e.generate_sequence length, 0 ≤ y ∧ y ≤ 1) := by
  refine ⟨logisticLoop_length _ _ _, logisticLoop_eq_map _ _ _, ?_, ?_,
    fun hr0 hr4 hx0 hx1 => logisticLoop_mem_unitInterval hr0 hr4 hx0 hx1 length⟩
  · intro h0
    have := logisticLoop_getD e.r e.x0 length 0 h0
    simpa [ChaosEngine.generate_sequence] using this
  · intro i hi
    have h1 := logisticLoop_getD e.r e.x0 length (i + 1) hi
    have h2 := logisticLoop_getD e.r e.x0 length i (by omega)
    simp only [ChaosEngine.generate_sequence] at h1 h2 ⊢
    rw [h1, h2, Function.iterate_succ_apply']

/-- Witness for C8: the amended theorem applied at
`e = ⟨3.99, 0.4⟩`, `length = 2` (the seed used by the repository's own
quick test in chaos_engine.py), with the range clause's side
conditions discharged there. -/
theorem C8_witness :
    ((ChaosEngine.generate_sequence ⟨3.99, 0.4⟩ 2).length = 2 ∧
    ChaosEngine.generate_sequence ⟨3.99, 0.4⟩ 2
      = (List.range 2).map (fun i => (logisticStep (3.99 : ℝ))^[i + 1] (0.4 : ℝ)) ∧
    (0 < 2 → (ChaosEngine.generate_sequence ⟨3.99, 0.4⟩ 2).getD 0 0
      = logisticStep 3.99 0.4) ∧
    (∀ i, i + 1 < 2 →
      (ChaosEngine.generate_sequence ⟨3.99, 0.4⟩ 2).getD (i + 1) 0
        = logisticStep 3.99 ((ChaosEngine.generate_sequence ⟨3.99, 0.4⟩ 2).getD i 0)) ∧
    (0 ≤ (3.99 : ℝ) → (3.99 : ℝ) ≤ 4 → 0 ≤ (0.4 : ℝ) → (0.4 : ℝ) ≤ 1 →
      ∀ y ∈ ChaosEngine.generate_sequence ⟨3.99, 0.4⟩ 2, 0 ≤ y ∧ y ≤ 1)) ∧
    (∀ y ∈ ChaosEngine.generate_sequence ⟨3.99, 0.4⟩ 2, 0 ≤ y ∧ y ≤ 1) :=
  ⟨C8_generate_sequence ⟨3.99, 0.4⟩ 2,
    (C8_generate_sequence ⟨3.99, 0.4⟩ 2).2.2.2.2
      (by norm_num) (by norm_num) (by norm_num) (by norm_num)⟩

/-! ## Claim C5 -/

/-- C5, as frozen, is false: `SecureVectorEngine.__init__` contains no
seed validation, so construction succeeds even for a seed outside
`(0,1)` — here the seed `2`. -/
theorem C5_counterexample :
    ¬ (0 < (2 : ℝ) ∧ (2 : ℝ) < 1) ∧
    (SecureVectorEngine.init 2 1).isSome = true :=
  ⟨by norm_num, rfl⟩

/-- C5 (amended): engine construction performs no seed validation at
all — for every seed (inside or outside `(0,1)`) and every dimension,
construction succeeds and returns an engine; the `(0,1)` bound is only
a documented precondition. -/
theorem C5_init_never_fails (secret_key : ℝ) (dimension : ℕ) :
    (SecureVectorEngine.init secret_key dimension).isSome = true :=
  rfl

/-! ## Claim C2 -/

theorem generate_orthogonal_matrix_orthogonal (e : ChaosEngine) (n : ℕ) :
    (e.generate_orthogonal_matrix n)ᵀ * e.generate_orthogonal_matrix n = 1 := by
  simp only [ChaosEngine.generate_orthogonal_matrix]
  exact qrQ_orthogonal _

/-- C2: for every seed in `(0,1)` (and in fact any seed), any control
parameter, and any size `n ≥ 1`, the generated key matrix `Q` is
orthogonal — in exact arithmetic `Qᵀ·Q = I`, so every entry of
`Qᵀ·Q − I` is (well) below `1e-6` in absolute value — and
`det Q = ±1`.  The last conjunct records that the matrix the engine
caches at construction is exactly such a generated matrix (with
`r = 3.99`), so the invariant covers the cached key as well. -/
theorem C2_key_matrix_orthogonal (seed rparam : ℝ) (n : ℕ)
    (h0 : 0 < seed) (h1 : seed < 1) (hn : 1 ≤ n) :
    (∀ i j, |(((ChaosEngine.generate_orthogonal_matrix ⟨rparam, seed⟩ n)ᵀ *
        ChaosEngine.generate_orthogonal_matrix ⟨rparam, seed⟩ n - 1) i j)| < 1e-6) ∧
    ((ChaosEngine.generate_orthogonal_matrix ⟨rparam, seed⟩ n).det = 1 ∨
      (ChaosEngine.generate_orthogonal_matrix ⟨rparam, seed⟩ n).det = -1) ∧
    SecureVectorEngine.init seed n = some
      { secret_key := seed
        dimension := n
        engine := ⟨3.99, seed⟩
        orthogonal_key := ChaosEngine.generate_orthogonal_matrix ⟨3.99, seed⟩ n } := by
  have hQ := generate_orthogonal_matrix_orthogonal ⟨rparam, seed⟩ n
  refine ⟨?_, ?_, rfl⟩
  · intro i j
    rw [hQ]
    simp only [sub_self, Matrix.zero_apply, abs_zero]
    norm_num
  · have h2 := congrArg Matrix.det hQ
    rw [Matrix.det_mul, Matrix.det_transpose, Matrix.det_one] at h2
    exact mul_self_eq_one_iff.mp h2

/-- Witness for C2: the theorem applied at `seed = 1/2`,
`rparam = 3.99`, `n = 1`. -/
theorem C2_witness :
    (0 < (1 / 2 : ℝ) ∧ (1 / 2 : ℝ) < 1 ∧ 1 ≤ 1) ∧
    ((∀ i j, |(((ChaosEngine.generate_orthogonal_matrix ⟨3.99, 1 / 2⟩ 1)ᵀ *
        ChaosEngine.generate_orthogonal_matrix ⟨3.99, 1 / 2⟩ 1 - 1) i j)| < 1e-6) ∧
    ((ChaosEngine.generate_orthogonal_matrix ⟨3.99, 1 / 2⟩ 1).det = 1 ∨
      (ChaosEngine.generate_orthogonal_matrix ⟨3.99, 1 / 2⟩ 1).det = -1) ∧
    SecureVectorEngine.init (1 / 2) 1 = some
      { secret_key := 1 / 2
        dimension := 1
        engine := ⟨3.99, 1 / 2⟩
        orthogonal_key := ChaosEngine.generate_orthogonal_matrix ⟨3.99, 1 / 2⟩ 1 }) :=
  ⟨⟨by norm_num, by norm_num, le_refl 1⟩,
    C2_key_matrix_orthogonal (1 / 2) 3.99 1 (by norm_num) (by norm_num) (le_refl 1)⟩

/-! ## Claim C1 -/

theorem encrypt_single_flat_eq_vecMul (E : SecureVectorEngine) (v : Fin E.dimension → ℝ) :
    E.encrypt_single (.flat v) = Matrix.vecMul v E.orthogonal_key := by
  funext j
  simp [SecureVectorEngine.encrypt_single, reshapeRow, Matrix.mul_apply,
    Matrix.vecMul, Matrix.dotProduct]

theorem encrypt_batch_row (E : SecureVectorEngine) {N : ℕ}
    (V : Matrix (Fin N) (Fin E.dimension) ℝ) (i : Fin N) :
    E.encrypt_batch V i = Matrix.vecMul (V i) E.orthogonal_key := by
  funext j
  simp [SecureVectorEngine.encrypt_batch, Matrix.mul_apply, Matrix.vecMul,
    Matrix.dotProduct]

/-- Multiplication by a matrix with `Qᵀ·Q = I` preserves dot products
of row vectors. -/
theorem dotProduct_vecMul_orthogonal {d : ℕ} (Q : Matrix (Fin d) (Fin d) ℝ)
    (hQ : Qᵀ * Q = 1) (a b : Fin d → ℝ) :
    Matrix.dotProduct (Matrix.vecMul a Q) (Matrix.vecMul b Q) = Matrix.dotProduct a b := by
  have hQQt : Q * Qᵀ = 1 := Matrix.mul_eq_one_comm.mp hQ
  calc Matrix.dotProduct (Matrix.vecMul a Q) (Matrix.vecMul b Q)
      = Matrix.dotProduct (Matrix.vecMul a Q) (Matrix.mulVec Qᵀ b) := by
        rw [Matrix.mulVec_transpose]
  _ = Matrix.dotProduct (Matrix.vecMul (Matrix.vecMul a Q) Qᵀ) b :=
        Matrix.dotProduct_mulVec _ _ _
  _ = Matrix.dotProduct (Matrix.vecMul a (Q * Qᵀ)) b := by
        rw [Matrix.vecMul_vecMul]
  _ = Matrix.dotProduct a b := by rw [hQQt, Matrix.vecMul_one]

theorem sum_sq_sub_eq_dot {d : ℕ} (x y : Fin d → ℝ) :
    ∑ j, (x j - y j) ^ 2 = Matrix.dotProduct (x - y) (x - y) := by
  simp [Matrix.dotProduct, sq]

theorem sum_sq_eq_dot_self {d : ℕ} (x : Fin d → ℝ) :
    ∑ j, x j * x j = Matrix.dotProduct x x := rfl

theorem sum_mul_eq_dot {d : ℕ} (x y : Fin d → ℝ) :
    ∑ j, x j * y j = Matrix.dotProduct x y := rfl

theorem euclid_vecMul_orthogonal {d : ℕ} (Q : Matrix (Fin d) (Fin d) ℝ)
    (hQ : Qᵀ * Q = 1) (a b : Fin d → ℝ) :
    euclid (Matrix.vecMul a Q) (Matrix.vecMul b Q) = euclid a b := by
  unfold euclid
  congr 1
  rw [sum_sq_sub_eq_dot, sum_sq_sub_eq_dot, ← Matrix.sub_vecMul,
    dotProduct_vecMul_orthogonal Q hQ]

theorem cosine_vecMul_orthogonal {d : ℕ} (Q : Matrix (Fin d) (Fin d) ℝ)
    (hQ : Qᵀ * Q = 1) (a b : Fin d → ℝ) :
    cosine_similarity (Matrix.vecMul a Q) (Matrix.vecMul b Q) = cosine_similarity a b := by
  unfold cosine_similarity
  simp only [sum_mul_eq_dot, sum_sq_eq_dot_self]
  rw [dotProduct_vecMul_orthogonal Q hQ, dotProduct_vecMul_orthogonal Q hQ,
    dotProduct_vecMul_orthogonal Q hQ]

/-- C1: if the engine's key matrix `Q` satisfies `Qᵀ·Q = I` then
encryption preserves pairwise geometry exactly (in real arithmetic):
for any two rows of a batch, and for any two single vectors, the
Euclidean distance and the cosine similarity of the encrypted vectors
equal those of the plaintexts — with no normalization assumption on the
inputs. -/
theorem C1_encrypt_preserves_geometry (E : SecureVectorEngine)
    (hQ : E.orthogonal_keyᵀ * E.orthogonal_key = 1)
    (a b : Fin E.dimension → ℝ) {N : ℕ}
    (V : Matrix (Fin N) (Fin E.dimension) ℝ) (i1 i2 : Fin N) :
    euclid (E.encrypt_single (.flat a)) (E.encrypt_single (.flat b)) = euclid a b ∧
    cosine_similarity (E.encrypt_single (.flat a)) (E.encrypt_single (.flat b))
      = cosine_similarity a b ∧
    euclid (E.encrypt_batch V i1) (E.encrypt_batch V i2) = euclid (V i1) (V i2) ∧
    cosine_similarity (E.encrypt_batch V i1) (E.encrypt_batch V i2)
      = cosine_similarity (V i1) (V i2) := by
  rw [encrypt_single_flat_eq_vecMul, encrypt_single_flat_eq_vecMul,
    encrypt_batch_row, encrypt_batch_row]
  exact ⟨euclid_vecMul_orthogonal _ hQ a b, cosine_vecMul_orthogonal _ hQ a b,
    euclid_vecMul_orthogonal _ hQ _ _, cosine_vecMul_orthogonal _ hQ _ _⟩

/-- A concrete engine (dimension 1, identity key) used to instantiate
hypothesised theorems. -/
noncomputable def witnessEngine : SecureVectorEngine :=
  { secret_key := 1 / 2
    dimension := 1
    engine := ⟨3.99, 1 / 2⟩
    orthogonal_key := 1 }

/-- A concrete single-row batch for the C1 witness. -/
noncomputable def witnessBatch : Matrix (Fin 1) (Fin witnessEngine.dimension) ℝ :=
  Matrix.of fun _ _ => 3

/-- Witness for C1: the theorem applied to `witnessEngine` (whose key
`I` is orthogonal) and concrete vectors. -/
theorem C1_witness :
    (witnessEngine.orthogonal_keyᵀ * witnessEngine.orthogonal_key = 1) ∧
    (euclid (witnessEngine.encrypt_single (.flat fun _ => 2))
        (witnessEngine.encrypt_single (.flat fun _ => 0))
      = euclid (fun _ : Fin witnessEngine.dimension => (2 : ℝ)) (fun _ => 0) ∧
    cosine_similarity (witnessEngine.encrypt_single (.flat fun _ => 2))
        (witnessEngine.encrypt_single (.flat fun _ => 0))
      = cosine_similarity (fun _ : Fin witnessEngine.dimension => (2 : ℝ)) (fun _ => 0) ∧
    euclid (witnessEngine.encrypt_batch witnessBatch (0 : Fin 1))
        (witnessEngine.encrypt_batch witnessBatch (0 : Fin 1))
      = euclid (witnessBatch (0 : Fin 1)) (witnessBatch (0 : Fin 1)) ∧
    cosine_similarity (witnessEngine.encrypt_batch witnessBatch (0 : Fin 1))
        (witnessEngine.encrypt_batch witnessBatch (0 : Fin 1))
      = cosine_similarity (witnessBatch (0 : Fin 1)) (witnessBatch (0 : Fin 1))) :=
  ⟨by simp [witnessEngine],
    C1_encrypt_preserves_geometry witnessEngine (by simp [witnessEngine])
      (fun _ => 2) (fun _ => 0) witnessBatch (0 : Fin 1) (0 : Fin 1)⟩

/-! ## Claim C7 -/

/-- C7: the single-vector encryption path agrees exactly with row 0 of
the batch path applied to the single-row batch `[v]` (in real
arithmetic the two are the same computation, so they agree
bit-for-bit). -/
theorem C7_single_eq_batch_row (E : SecureVectorEngine) (v : Fin E.dimension → ℝ) :
    E.encrypt_single (.flat v) = E.encrypt_batch (reshapeRow v) 0 := by
  funext j
  simp [SecureVectorEngine.encrypt_single, SecureVectorEngine.encrypt_batch]

/-! ## Claim C10 -/

/-- C10: `encrypt_single` accepts a vector of the bound dimension
either as a flat `(d,)` array or as a `(1, d)` single-row matrix,
produces the same encrypted values in both cases, and always returns a
flat `d`-length vector (the common value being `v ·ᵥ Key`; flatness is
the return type `Fin d → ℝ` produced by the final `.flatten()`). -/
theorem C10_encrypt_single_shapes (E : SecureVectorEngine) (v : Fin E.dimension → ℝ) :
    E.encrypt_single (.row (reshapeRow v)) = E.encrypt_single (.flat v) ∧
    E.encrypt_single (.flat v) = Matrix.vecMul v E.orthogonal_key :=
  ⟨rfl, encrypt_single_flat_eq_vecMul E v⟩

/-! ## Claim C6 -/

/-- C6: an input whose vector length / column count `m` differs from
the engine's bound dimension makes the encryption call fail
synchronously (`none`, numpy's matmul shape error): no value is
returned, so nothing is truncated or padded; and the engine itself is
untouched — a subsequent call with a well-shaped input still succeeds
and computes the ordinary product. -/
theorem C6_dimension_mismatch_rejected (E : SecureVectorEngine) {N m : ℕ}
    (vectors : Matrix (Fin N) (Fin m) ℝ) (vec : Fin m → ℝ) (h : m ≠ E.dimension) :
    E.encrypt_batch_checked vectors = none ∧
    E.encrypt_single_checked vec = none ∧
    (∀ good : Matrix (Fin N) (Fin E.dimension) ℝ,
      E.encrypt_batch_checked good = some (E.encrypt_batch good)) ∧
    (∀ goodv : Fin E.dimension → ℝ,
      E.encrypt_single_checked goodv = some (E.encrypt_single (.flat goodv))) := by
  refine ⟨?_, ?_, ?_, ?_⟩
  · simp [SecureVectorEngine.encrypt_batch_checked, h]
  · simp [SecureVectorEngine.encrypt_single_checked, h]
  · intro good
    simp only [SecureVectorEngine.encrypt_batch_checked, dif_pos]
    rfl
  · intro goodv
    simp only [SecureVectorEngine.encrypt_single_checked, dif_pos]
    rfl

/-- Witness for C6: the theorem applied to `witnessEngine` (dimension
1) and a 2-column input. -/
theorem C6_witness :
    ((2 : ℕ) ≠ witnessEngine.dimension) ∧
    (witnessEngine.encrypt_batch_checked (Matrix.of fun (_ : Fin 1) (_ : Fin 2) => (1 : ℝ)) = none ∧
    witnessEngine.encrypt_single_checked (fun (_ : Fin 2) => (1 : ℝ)) = none ∧
    (∀ good : Matrix (Fin 1) (Fin witnessEngine.dimension) ℝ,
      witnessEngine.encrypt_batch_checked good = some (witnessEngine.encrypt_batch good)) ∧
    (∀ goodv : Fin witnessEngine.dimension → ℝ,
      witnessEngine.encrypt_single_checked goodv
        = some (witnessEngine.encrypt_single (.flat goodv)))) :=
  ⟨by decide,
    C6_dimension_mismatch_rejected witnessEngine
      (Matrix.of fun (_ : Fin 1) (_ : Fin 2) => (1 : ℝ))
      (fun (_ : Fin 2) => (1 : ℝ)) (by decide)⟩

/-! ## Claims C3 and C9 (search) -/

theorem argsortDist_length {N : ℕ} (dist : Fin N → ℝ) :
    (argsortDist dist).length = N := by
  simp [argsortDist, List.length_insertionSort]

/-- Sorting the indices by their distances and then reading the
distances off yields exactly the ascending sort of all distances. -/
theorem argsortDist_map_eq_sorted {N : ℕ} (dist : Fin N → ℝ) :
    (argsortDist dist).map dist
      = List.insertionSort (· ≤ ·) ((List.finRange N).map dist) := by
  haveI hts : IsTrans (Fin N) (fun i j => dist i ≤ dist j) :=
    ⟨fun _ _ _ hab hbc => le_trans hab hbc⟩
  haveI htot : IsTotal (Fin N) (fun i j => dist i ≤ dist j) :=
    ⟨fun _ _ => le_total _ _⟩
  apply List.eq_of_perm_of_sorted (r := (· ≤ ·))
  · refine List.Perm.trans ?_ (List.perm_insertionSort _ _).symm
    exact (List.perm_insertionSort _ _).map dist
  · exact List.pairwise_map.mpr (List.sorted_insertionSort _ _)
  · exact List.sorted_insertionSort _ _

theorem search_map_snd {d N : ℕ} (q : Fin d → ℝ) (db : Matrix (Fin N) (Fin d) ℝ)
    (top_k : ℕ) :
    (search q db top_k).map Prod.snd
      = ((argsortDist (searchDist q db)).take top_k).map (searchDist q db) := by
  simp only [search, List.map_map]
  rfl

theorem search_map_fst {d N : ℕ} (q : Fin d → ℝ) (db : Matrix (Fin N) (Fin d) ℝ)
    (top_k : ℕ) :
    (search q db top_k).map Prod.fst = (argsortDist (searchDist q db)).take top_k := by
  simp only [search, List.map_map]
  exact List.map_id _

/-- C3: `search` returns exactly `min top_k N` results; their distance
components are precisely the `min top_k N` smallest of the `N`
row-distances, in ascending order (the first `top_k` entries of the
full ascending sort of all `N` distances).  In particular, when
`top_k > N` all `N` results are returned and no error occurs. -/
theorem C3_search_returns_topk_smallest {d N : ℕ} (q : Fin d → ℝ)
    (db : Matrix (Fin N) (Fin d) ℝ) (top_k : ℕ) (hk : 1 ≤ top_k) :
    (search q db top_k).length = min top_k N ∧
    (search q db top_k).map Prod.snd
      = (List.insertionSort (· ≤ ·) ((List.finRange N).map (searchDist q db))).take top_k ∧
    List.Sorted (· ≤ ·) ((search q db top_k).map Prod.snd) := by
  refine ⟨?_, ?_, ?_⟩
  · simp [search, List.length_take, argsortDist_length]
  · rw [search_map_snd, List.map_take, argsortDist_map_eq_sorted]
  · rw [search_map_snd, List.map_take, argsortDist_map_eq_sorted]
    exact List.Pairwise.sublist (List.take_sublist _ _) (List.sorted_insertionSort _ _)

/-- A concrete 2-row, 1-column database for the C3 witness. -/
noncomputable def witnessDb : Matrix (Fin 2) (Fin 1) ℝ :=
  Matrix.of fun i _ => if i = 0 then 5 else 3

/-- Witness for C3: the theorem applied to a concrete query, the
concrete 2-row database, and `top_k = 1`. -/
theorem C3_witness :
    (1 ≤ 1) ∧
    ((search (fun _ : Fin 1 => (0 : ℝ)) witnessDb 1).length = min 1 2 ∧
    (search (fun _ : Fin 1 => (0 : ℝ)) witnessDb 1).map Prod.snd
      = (List.insertionSort (· ≤ ·)
          ((List.finRange 2).map (searchDist (fun _ : Fin 1 => (0 : ℝ)) witnessDb))).take 1 ∧
    List.Sorted (· ≤ ·) ((search (fun _ : Fin 1 => (0 : ℝ)) witnessDb 1).map Prod.snd)) :=
  ⟨le_refl 1, C3_search_returns_topk_smallest (fun _ : Fin 1 => (0 : ℝ)) witnessDb 1 (le_refl 1)⟩

/-- C9: every index `search` returns is in range `[0, N)`, the
returned indices are pairwise distinct, and each returned pair carries
exactly the Euclidean distance from the query to the database row at
its index. -/
theorem C9_search_results_consistent {d N : ℕ} (q : Fin d → ℝ)
    (db : Matrix (Fin N) (Fin d) ℝ) (top_k : ℕ) :
    (∀ p ∈ search q db top_k, (p.1 : ℕ) < N) ∧
    ((search q db top_k).map Prod.fst).Nodup ∧
    (∀ p ∈ search q db top_k, p.2 = searchDist q db p.1) := by
  refine ⟨fun p _ => p.1.isLt, ?_, ?_⟩
  · rw [search_map_fst]
    have hnd : (argsortDist (searchDist q db)).Nodup :=
      (List.Perm.nodup_iff (List.perm_insertionSort _ _)).mpr (List.nodup_finRange N)
    exact List.Nodup.sublist (List.take_sublist _ _) hnd
  · intro p hp
    simp only [search, List.mem_map] at hp
    obtain ⟨i, _, hi⟩ := hp
    rw [← hi]
